import Mathlib

/-!
Verification development for a chess-puzzle strategy benchmark (`main.py`).

The program pits move-selection strategies (a fixed-depth minimizing search
over pluggable material evaluators, and a uniform-random baseline) against a
stream of puzzle records, accumulating per-strategy accuracy statistics.

The chess rules engine (`python-chess`) is an external collaborator: it is
modelled as an abstract interface `RulesEngine` supplying legal-move
enumeration, move application, checkmate detection, side to move, and piece
counts.  Python strings that the program splits and compares are modelled as
`List Char`; machine integers as `Int`/`Nat` (all arithmetic in the program
is exact integer arithmetic, so Python's float type never loses a value).
Fallible operations (`random.choice` on an empty sequence, list indexing,
reading past the end of a file) are modelled with `Option`/`Except`.
-/

/-- Piece kinds of the external rules engine (`chess.PAWN` … `chess.KING`). -/
inductive PieceType : Type
  | pawn
  | knight
  | bishop
  | rook
  | queen
  | king
deriving DecidableEq

/-- The external chess rules engine interface (`python-chess`), as consumed by
`main.py`.  Colors follow `python-chess`: `chess.WHITE = true`,
`chess.BLACK = false`.  `pieces b pt c` is `len(b.pieces(pt, c))`;
`push b m` is `b.copy()` followed by `b.push(m)` (a fresh derived position);
`uci m` is `m.uci()`. -/
structure RulesEngine (Pos M : Type) where
  legal_moves : Pos → List M
  push : Pos → M → Pos
  is_checkmate : Pos → Bool
  turn : Pos → Bool
  pieces : Pos → PieceType → Bool → Nat
  uci : M → List Char

namespace BaseBoardEvaluator

/-- `BaseBoardEvaluator.PIECE_VALUES`: the weight table, in its Python dict
iteration order (insertion order). -/
def PIECE_VALUES : List (PieceType × Int) :=
  [(PieceType.pawn, 1), (PieceType.knight, 3), (PieceType.bishop, 3),
   (PieceType.rook, 5), (PieceType.queen, 9)]

/-- `BaseBoardEvaluator.opponent`: `chess.BLACK if color == chess.WHITE else chess.WHITE`. -/
def opponent (color : Bool) : Bool :=
  if color = true then false else true

/-- `BaseBoardEvaluator.sum_pieces` (with the default weight table):
`sum(weights[pt] * len(board.pieces(pt, color)) for pt in weights)`. -/
def sum_pieces {Pos M : Type} (R : RulesEngine Pos M) (board : Pos) (color : Bool) : Int :=
  (PIECE_VALUES.map (fun w => w.2 * (R.pieces board w.1 color : Int))).sum

end BaseBoardEvaluator

namespace MaterialBalanceEvaluator

/-- `MaterialBalanceEvaluator.evaluate`. -/
def evaluate {Pos M : Type} (R : RulesEngine Pos M) (board init_board : Pos) (player : Int) : Int :=
  if R.is_checkmate board then -player
  else
    let color := R.turn board
    player * (BaseBoardEvaluator.sum_pieces R board color -
      BaseBoardEvaluator.sum_pieces R board (BaseBoardEvaluator.opponent color))

end MaterialBalanceEvaluator

namespace MaterialDiffEvaluator

/-- `MaterialDiffEvaluator.evaluate`. -/
def evaluate {Pos M : Type} (R : RulesEngine Pos M) (board init_board : Pos) (player : Int) : Int :=
  if R.is_checkmate board then -player
  else
    let color := R.turn board
    player * (
      (BaseBoardEvaluator.sum_pieces R board color -
        BaseBoardEvaluator.sum_pieces R init_board color) -
      (BaseBoardEvaluator.sum_pieces R board (BaseBoardEvaluator.opponent color) -
        BaseBoardEvaluator.sum_pieces R init_board (BaseBoardEvaluator.opponent color)))

end MaterialDiffEvaluator

/-- Stable insertion of a scored candidate into an already-sorted list:
an element goes after every element with a strictly smaller key and before
the first element with an equal-or-larger key.  Together with `sortPairs`
this is a stable ascending sort by the first component — extensionally the
`evaluations.sort(key=lambda x: x[0])` (Timsort, stable) of the source. -/
def insertPair {M : Type} (a : Int × M) : List (Int × M) → List (Int × M)
  | [] => [a]
  | b :: bs => if b.1 < a.1 then b :: insertPair a bs else a :: b :: bs

/-- Stable ascending sort of scored candidates by score
(models `evaluations.sort(key=lambda x: x[0])`). -/
def sortPairs {M : Type} : List (Int × M) → List (Int × M)
  | [] => []
  | a :: as => insertPair a (sortPairs as)

theorem insertPair_ne_nil {M : Type} (a : Int × M) (l : List (Int × M)) :
    insertPair a l ≠ [] := by
  cases l with
  | nil => simp [insertPair]
  | cons b bs =>
    simp only [insertPair]
    split <;> simp

theorem sortPairs_cons_ne_nil {M : Type} (x : Int × M) (xs : List (Int × M)) :
    sortPairs (x :: xs) ≠ [] := by
  simp only [sortPairs]
  exact insertPair_ne_nil x (sortPairs xs)

/-- `evaluations.sort(key=lambda x: x[0]); return evaluations[0]`:
sort the (nonempty) candidate list stably by score and take the first entry. -/
def sortHead {M : Type} (x : Int × M) (xs : List (Int × M)) : Int × M :=
  (sortPairs (x :: xs)).head (sortPairs_cons_ne_nil x xs)

namespace MinMaxStrategy

/-- `MinMaxStrategy.minmax`, with `self.depth` as `selfDepth` and
`self.evaluator.evaluate` as `ev`.  `init_board = init_board or board` is the
`Option.getD`; the recursive call through `evaluate_move` is inlined
(`evaluate_move` derives the successor position, recurses at `depth+1`, and
pairs the score with the move). -/
def minmax {Pos M : Type} (R : RulesEngine Pos M) (ev : Pos → Pos → Int → Int)
    (selfDepth : Nat) (board : Pos) (player : Int) (init_board : Option Pos)
    (depth : Nat) : Int × Option M :=
  let init := init_board.getD board
  if _h : selfDepth ≤ depth then
    (ev board init player, none)
  else
    match R.legal_moves board with
    | [] => (ev board init player, none)
    | m :: ms =>
      let f : M → Int × M := fun mv =>
        ((minmax R ev selfDepth (R.push board mv) player (some init) (depth + 1)).1, mv)
      let best := sortHead (f m) (ms.map f)
      (best.1, some best.2)
termination_by selfDepth - depth
decreasing_by omega

/-- `MinMaxStrategy.get_move`: run `minmax` from the root with the default
arguments (`player = 1`, `init_board = None`, `depth = 0`) and return the
selected move's UCI text, or `None` when there is no move. -/
def get_move {Pos M : Type} (R : RulesEngine Pos M) (ev : Pos → Pos → Int → Int)
    (selfDepth : Nat) (board : Pos) : Option (List Char) :=
  match (minmax R ev selfDepth board 1 none 0).2 with
  | some m => some (R.uci m)
  | none => none

end MinMaxStrategy

/-- `random.choice(seq)`: picks an element of the sequence at an index drawn
by the generator (modelled by the draw `r`, reduced modulo the length);
raises `IndexError: Cannot choose from an empty sequence` when `seq` is empty. -/
def random_choice {α : Type} (r : Nat) (l : List α) : Except (List Char) α :=
  match l with
  | [] => Except.error "Cannot choose from an empty sequence".toList
  | a :: as =>
    Except.ok ((a :: as).get ⟨r % (a :: as).length, Nat.mod_lt r (Nat.succ_pos as.length)⟩)

namespace RandomStrategy

/-- `RandomStrategy.get_move`: `random.choice(list(board.legal_moves)).uci()`,
with the random draw modelled by `r`.  The `Except` result models the
possibility of the `IndexError` raised by `random.choice` on an empty
sequence. -/
def get_move {Pos M : Type} (r : Nat) (R : RulesEngine Pos M) (board : Pos) :
    Except (List Char) (List Char) :=
  (random_choice r (R.legal_moves board)).map R.uci

end RandomStrategy

/-- Python `str.split(sep)` with a one-character separator, on strings
modelled as `List Char`: split at every occurrence of the separator, no
collapsing of adjacent separators (`''.split(',') == ['']`,
`','.split(',') == ['', '']`). -/
def splitOnChar (sep : Char) : List Char → List (List Char)
  | [] => [[]]
  | c :: cs =>
    if c = sep then [] :: splitOnChar sep cs
    else
      match splitOnChar sep cs with
      | [] => [[c]]
      | w :: ws => (c :: w) :: ws

/-- Comma-serialization of a record's fields into one CSV line (how an input
dataset line is formed from its column values). -/
def joinComma : List (List Char) → List Char
  | [] => []
  | [f] => f
  | f :: fs => f ++ ',' :: joinComma fs

namespace PuzzleExtractor

/-- `PuzzleExtractor.HEADERS`: the hard-coded column-name list. -/
def HEADERS : List String :=
  ["PuzzleId", "FEN", "Moves", "Rating", "RatingDeviation", "Popularity",
   "NbPlays", "Themes", "GameUrl", "OpeningTags"]

/-- `PuzzleExtractor.header_idx`: the dict mapping each hard-coded header name
to its position in `HEADERS` (a lookup of a missing key — `KeyError` — is the
`none` case). -/
def header_idx (name : String) : Option Nat :=
  HEADERS.indexOf? name

/-- `PuzzleExtractor.extract_puzzle`: split the line on commas, read the FEN
column and the Moves column at the indices `header_idx` assigns to those
names, build the board from the FEN text (the external `chess.Board`
constructor is the parameter `parseFEN`), and split the Moves text on spaces.
`none` models the `KeyError`/`IndexError` exceptions of a failed lookup. -/
def extract_puzzle {B : Type} (parseFEN : List Char → B) (line : List Char) :
    Option (B × List (List Char)) :=
  let xs := splitOnChar ',' line
  match header_idx "FEN" with
  | none => none
  | some i =>
    match xs.get? i with
    | none => none
    | some fen =>
      match header_idx "Moves" with
      | none => none
      | some j =>
        match xs.get? j with
        | none => none
        | some mvs => some (parseFEN fen, splitOnChar ' ' mvs)

end PuzzleExtractor

/-- A registered strategy as the harness sees it: a name, a move-selection
function (`get_move`), and the `stats` counters (`wins`, `total`).
Strategies whose `get_move` can raise (the random baseline) are outside this
deterministic interface; the harness claims are about the counting and
reporting logic, which consumes an `Option`-valued move. -/
structure ChessStrategy (Pos : Type) where
  name : String
  get_move : Pos → Option (List Char)
  wins : Nat
  total : Nat

namespace ChessStrategy

/-- `ChessStrategy.update_stats`: `total += 1`; `wins += 1` iff `won`. -/
def update_stats {Pos : Type} (s : ChessStrategy Pos) (won : Bool) : ChessStrategy Pos :=
  { s with total := s.total + 1, wins := if won then s.wins + 1 else s.wins }

end ChessStrategy

namespace StrategyEvaluator

/-- `StrategyEvaluator.print_stats`, as the data content of the printed
snapshot line: one `(name, wins, total)` entry per strategy with
`total > 0`, in registration order.  The printed text
`name: wins/total (rate%)` is a function of this triple
(`rate = wins/total*100`, rendered with one decimal), so the snapshot is
modelled by the list of triples. -/
def print_stats {Pos : Type} (strategies : List (ChessStrategy Pos)) :
    List (String × Nat × Nat) :=
  strategies.filterMap fun s =>
    if s.total > 0 then some (s.name, s.wins, s.total) else none

/-- `StrategyEvaluator.evaluate_puzzle`: ask every strategy (in registration
order) for its move on `board`, compare with the expected move text
(`None == expected` is `False`), update that strategy's counters, and return
whether any strategy was correct, together with the updated strategies. -/
def evaluate_puzzle {Pos : Type} (board : Pos) (expected : List Char) :
    List (ChessStrategy Pos) → Bool × List (ChessStrategy Pos)
  | [] => (false, [])
  | s :: rest =>
    let actual := s.get_move board
    let won := actual == some expected
    let r := evaluate_puzzle board expected rest
    (won || r.1, s.update_stats won :: r.2)

/-- The loop body of `StrategyEvaluator.evaluate_all` over the lines after
the header: for each line, extract the puzzle (a decode failure aborts the
run, modelled by `Except.error`), evaluate every strategy against the first
solution move (`solution_moves[0]`; an empty move list would raise
`IndexError`), emit a stats snapshot when some strategy was correct, and
emit one final snapshot after the last line.  The result collects the
emitted snapshots and the final strategy states. -/
def evaluate_all_loop {Pos : Type} (parseFEN : List Char → Pos)
    (strategies : List (ChessStrategy Pos)) :
    List (List Char) →
      Except (List Char) (List (List (String × Nat × Nat)) × List (ChessStrategy Pos))
  | [] => Except.ok ([print_stats strategies], strategies)
  | line :: rest =>
    match PuzzleExtractor.extract_puzzle parseFEN line with
    | none => Except.error "decode error".toList
    | some (board, solution_moves) =>
      match solution_moves with
      | [] => Except.error "IndexError".toList
      | e :: _ =>
        let r := evaluate_puzzle board e strategies
        (evaluate_all_loop parseFEN r.2 rest).map fun out =>
          (if r.1 then print_stats r.2 :: out.1 else out.1, out.2)

/-- `StrategyEvaluator.evaluate_all`: `next(f)` skips the first line of the
puzzle file (raising `StopIteration` on an empty file), then the loop above
processes the remaining lines. -/
def evaluate_all {Pos : Type} (parseFEN : List Char → Pos)
    (strategies : List (ChessStrategy Pos)) (lines : List (List Char)) :
    Except (List Char) (List (List (String × Nat × Nat)) × List (ChessStrategy Pos)) :=
  match lines with
  | [] => Except.error "StopIteration".toList
  | _header :: rest => evaluate_all_loop parseFEN strategies rest

end StrategyEvaluator

/-- A small concrete instance of the external rules engine, used to witness
the theorems on concrete inputs.  Positions and moves are numbered: playing
move `m` leads to position `m`.  Position 0 has the two legal moves 1 and 2;
position 1 is checkmate; position 2 is a quiet position where the opponent
of the side to move holds a queen and the mover nothing; position 3 is a
quiet position where the side to move holds one extra queen (three pawns and
one queen each, plus the extra); every other position is empty and terminal
but not checkmate (stalemate-like). -/
def toyR : RulesEngine Nat Nat where
  legal_moves := fun p => if p = 0 then [1, 2] else []
  push := fun _ m => m
  is_checkmate := fun p => p == 1
  turn := fun _ => true
  pieces := fun p pt c =>
    if p = 2 then (if pt == PieceType.queen && c == false then 1 else 0)
    else if p = 3 then
      (if pt == PieceType.queen then (if c then 2 else 1)
       else if pt == PieceType.pawn then 3 else 0)
    else 0
  uci := fun m => (toString m).toList

/-- Helper: both evaluators return `-player` at a checkmate position. -/
theorem evaluate_at_checkmate {Pos M : Type} (R : RulesEngine Pos M)
    (board init_board : Pos) (player : Int) (h : R.is_checkmate board = true) :
    MaterialBalanceEvaluator.evaluate R board init_board player = -player ∧
    MaterialDiffEvaluator.evaluate R board init_board player = -player := by
  constructor <;>
    simp [MaterialBalanceEvaluator.evaluate, MaterialDiffEvaluator.evaluate, h]

/-- C9: for both `MaterialBalanceEvaluator` and `MaterialDiffEvaluator`, if
the current position is checkmate then `evaluate(board, init_board, player)`
returns exactly `-player`, for every perspective, regardless of the material
on the board and of the reference position. -/
theorem checkmate_evaluates_to_neg_player {Pos M : Type} (R : RulesEngine Pos M)
    (board init_board : Pos) (player : Int) (h : R.is_checkmate board = true) :
    MaterialBalanceEvaluator.evaluate R board init_board player = -player ∧
    MaterialDiffEvaluator.evaluate R board init_board player = -player :=
  evaluate_at_checkmate R board init_board player h

theorem checkmate_evaluates_to_neg_player_witness :
    toyR.is_checkmate 1 = true ∧
    (MaterialBalanceEvaluator.evaluate toyR 1 0 1 = -1 ∧
     MaterialDiffEvaluator.evaluate toyR 1 0 1 = -1) :=
  ⟨by decide, checkmate_evaluates_to_neg_player toyR 1 0 1 (by decide)⟩

/-- C8 counterexample: `MaterialDiffEvaluator.evaluate(P, P, perspective)` is
not `0` for every valid position `P` — at a checkmate position it is
`-perspective`.  Position 1 of the toy engine is checkmate, and evaluating it
against itself at perspective `+1` gives `-1 ≠ 0`. -/
theorem diff_self_checkmate_counterexample :
    toyR.is_checkmate 1 = true ∧
    MaterialDiffEvaluator.evaluate toyR 1 1 1 = -1 ∧
    MaterialDiffEvaluator.evaluate toyR 1 1 1 ≠ 0 := by
  refine ⟨by decide, by decide, by decide⟩

/-- C8 (amended): for every position `P` that is not checkmate and every
perspective sign, evaluating `P` with itself as the reference position under
`MaterialDiffEvaluator` yields `0`; when `P` is checkmate the checkmate
special case fires instead and yields `-perspective`. -/
theorem diff_self_eq_zero {Pos M : Type} (R : RulesEngine Pos M) (P : Pos)
    (player : Int) (h : R.is_checkmate P = false) :
    MaterialDiffEvaluator.evaluate R P P player = 0 := by
  simp [MaterialDiffEvaluator.evaluate, h]

theorem diff_self_eq_zero_witness :
    toyR.is_checkmate 2 = false ∧ MaterialDiffEvaluator.evaluate toyR 2 2 1 = 0 :=
  ⟨by decide, diff_self_eq_zero toyR 2 1 (by decide)⟩

/-- C2 counterexample: the mating move's resulting evaluation is not always
strictly smaller than every non-mating candidate's.  In the toy engine,
position 0 has the mating move 1 (position 1 is checkmate, evaluating to
`-1`) and the non-mating move 2; after move 2 the side to move has no
material while its opponent holds a queen, so both evaluators score it `-9`,
and `-1 < -9` is false. -/
theorem mate_dominance_counterexample :
    (1 ∈ toyR.legal_moves 0) ∧ toyR.is_checkmate (toyR.push 0 1) = true ∧
    (2 ∈ toyR.legal_moves 0) ∧ toyR.is_checkmate (toyR.push 0 2) = false ∧
    MaterialBalanceEvaluator.evaluate toyR (toyR.push 0 1) 0 1 = -1 ∧
    MaterialBalanceEvaluator.evaluate toyR (toyR.push 0 2) 0 1 = -9 ∧
    ¬ (MaterialBalanceEvaluator.evaluate toyR (toyR.push 0 1) 0 1 <
        MaterialBalanceEvaluator.evaluate toyR (toyR.push 0 2) 0 1) ∧
    MaterialDiffEvaluator.evaluate toyR (toyR.push 0 1) 0 1 = -1 ∧
    MaterialDiffEvaluator.evaluate toyR (toyR.push 0 2) 0 1 = -9 ∧
    ¬ (MaterialDiffEvaluator.evaluate toyR (toyR.push 0 1) 0 1 <
        MaterialDiffEvaluator.evaluate toyR (toyR.push 0 2) 0 1) := by
  decide

/-- C2 (amended): for a position one legal move away from checkmate the
mating move's resulting evaluation equals `-perspective` under both
evaluators; under the engine's sign convention (`perspective = +1`, the
searcher minimizes) it is strictly smaller than the evaluation of a
non-mating candidate exactly when that candidate's evaluation exceeds `-1`
(e.g. is nonnegative); a non-mating candidate scoring `-1` or below — such
as a position where the mover is down a queen — is not dominated. -/
theorem mate_in_one_evaluation {Pos M : Type} (R : RulesEngine Pos M)
    (P init_board : Pos) (mv mv2 : M) (player : Int)
    (hmv : mv ∈ R.legal_moves P) (hmate : R.is_checkmate (R.push P mv) = true)
    (hmv2 : mv2 ∈ R.legal_moves P) (hquiet : R.is_checkmate (R.push P mv2) = false) :
    (MaterialBalanceEvaluator.evaluate R (R.push P mv) init_board player = -player ∧
     MaterialDiffEvaluator.evaluate R (R.push P mv) init_board player = -player) ∧
    ((-1 : Int) < MaterialBalanceEvaluator.evaluate R (R.push P mv2) init_board 1 →
      MaterialBalanceEvaluator.evaluate R (R.push P mv) init_board 1 <
        MaterialBalanceEvaluator.evaluate R (R.push P mv2) init_board 1) ∧
    ((-1 : Int) < MaterialDiffEvaluator.evaluate R (R.push P mv2) init_board 1 →
      MaterialDiffEvaluator.evaluate R (R.push P mv) init_board 1 <
        MaterialDiffEvaluator.evaluate R (R.push P mv2) init_board 1) := by
  have hb := evaluate_at_checkmate R (R.push P mv) init_board player hmate
  have h1 := evaluate_at_checkmate R (R.push P mv) init_board 1 hmate
  refine ⟨hb, ?_, ?_⟩ <;> intro hgt
  · rw [h1.1]; exact hgt
  · rw [h1.2]; exact hgt

theorem mate_in_one_evaluation_witness :
    ((1 ∈ toyR.legal_moves 0) ∧ toyR.is_checkmate (toyR.push 0 1) = true ∧
     (2 ∈ toyR.legal_moves 0) ∧ toyR.is_checkmate (toyR.push 0 2) = false) ∧
    ((MaterialBalanceEvaluator.evaluate toyR (toyR.push 0 1) 0 1 = -1 ∧
      MaterialDiffEvaluator.evaluate toyR (toyR.push 0 1) 0 1 = -1) ∧
     ((-1 : Int) < MaterialBalanceEvaluator.evaluate toyR (toyR.push 0 2) 0 1 →
       MaterialBalanceEvaluator.evaluate toyR (toyR.push 0 1) 0 1 <
         MaterialBalanceEvaluator.evaluate toyR (toyR.push 0 2) 0 1) ∧
     ((-1 : Int) < MaterialDiffEvaluator.evaluate toyR (toyR.push 0 2) 0 1 →
       MaterialDiffEvaluator.evaluate toyR (toyR.push 0 1) 0 1 <
         MaterialDiffEvaluator.evaluate toyR (toyR.push 0 2) 0 1)) :=
  ⟨⟨by decide, by decide, by decide, by decide⟩,
   mate_in_one_evaluation toyR 0 0 1 2 1 (by decide) (by decide) (by decide) (by decide)⟩

/-- The spec's notion of a side's material: sum over piece kinds of
count × standard value with pawn 1, knight 3, bishop 3, rook 5, queen 9 and
the king excluded.  Written from the spec's words, for comparison with the
source's `sum_pieces`. -/
def standardMaterialSpec {Pos M : Type} (R : RulesEngine Pos M) (board : Pos)
    (color : Bool) : Int :=
  (R.pieces board PieceType.pawn color : Int) * 1 +
  (R.pieces board PieceType.knight color : Int) * 3 +
  (R.pieces board PieceType.bishop color : Int) * 3 +
  (R.pieces board PieceType.rook color : Int) * 5 +
  (R.pieces board PieceType.queen color : Int) * 9

/-- The source's `sum_pieces` with the default weight table computes exactly
the spec's standard material. -/
theorem sum_pieces_eq_standardMaterial {Pos M : Type} (R : RulesEngine Pos M)
    (board : Pos) (color : Bool) :
    BaseBoardEvaluator.sum_pieces R board color = standardMaterialSpec R board color := by
  simp [BaseBoardEvaluator.sum_pieces, BaseBoardEvaluator.PIECE_VALUES,
    standardMaterialSpec]
  ring

/-- C7: for every non-checkmate position and every perspective,
`MaterialBalanceEvaluator.evaluate` equals
`perspective × (mover's material − opponent's material)` with the standard
piece values (king excluded); in particular, when the side to move has
exactly one extra queen and the two sides' pawn, knight, bishop and rook
counts agree, the result is `perspective * 9`. -/
theorem material_balance_formula {Pos M : Type} (R : RulesEngine Pos M)
    (board init_board : Pos) (player : Int) (h : R.is_checkmate board = false) :
    MaterialBalanceEvaluator.evaluate R board init_board player =
      player * (standardMaterialSpec R board (R.turn board) -
        standardMaterialSpec R board (BaseBoardEvaluator.opponent (R.turn board))) ∧
    ((R.pieces board PieceType.pawn (R.turn board) =
        R.pieces board PieceType.pawn (BaseBoardEvaluator.opponent (R.turn board)) ∧
      R.pieces board PieceType.knight (R.turn board) =
        R.pieces board PieceType.knight (BaseBoardEvaluator.opponent (R.turn board)) ∧
      R.pieces board PieceType.bishop (R.turn board) =
        R.pieces board PieceType.bishop (BaseBoardEvaluator.opponent (R.turn board)) ∧
      R.pieces board PieceType.rook (R.turn board) =
        R.pieces board PieceType.rook (BaseBoardEvaluator.opponent (R.turn board)) ∧
      R.pieces board PieceType.queen (R.turn board) =
        R.pieces board PieceType.queen (BaseBoardEvaluator.opponent (R.turn board)) + 1) →
      MaterialBalanceEvaluator.evaluate R board init_board player = player * 9) := by
  have hbase : MaterialBalanceEvaluator.evaluate R board init_board player =
      player * (standardMaterialSpec R board (R.turn board) -
        standardMaterialSpec R board (BaseBoardEvaluator.opponent (R.turn board))) := by
    simp only [MaterialBalanceEvaluator.evaluate, h, Bool.false_eq_true, if_false,
      sum_pieces_eq_standardMaterial]
  refine ⟨hbase, fun hc => ?_⟩
  obtain ⟨hp, hn, hb, hr, hq⟩ := hc
  rw [hbase]
  have : standardMaterialSpec R board (R.turn board) -
      standardMaterialSpec R board (BaseBoardEvaluator.opponent (R.turn board)) = 9 := by
    simp only [standardMaterialSpec, hp, hn, hb, hr, hq]
    push_cast
    ring
  rw [this]

theorem material_balance_formula_witness :
    (toyR.is_checkmate 3 = false ∧
     toyR.pieces 3 PieceType.queen (toyR.turn 3) =
       toyR.pieces 3 PieceType.queen (BaseBoardEvaluator.opponent (toyR.turn 3)) + 1) ∧
    (MaterialBalanceEvaluator.evaluate toyR 3 0 1 =
      1 * (standardMaterialSpec toyR 3 (toyR.turn 3) -
        standardMaterialSpec toyR 3 (BaseBoardEvaluator.opponent (toyR.turn 3)))) ∧
    MaterialBalanceEvaluator.evaluate toyR 3 0 1 = 1 * 9 :=
  ⟨⟨by decide, by decide⟩,
   (material_balance_formula toyR 3 0 1 (by decide)).1,
   (material_balance_formula toyR 3 0 1 (by decide)).2
     ⟨by decide, by decide, by decide, by decide, by decide⟩⟩

/-- C3 counterexample: `RandomStrategy.get_move` is not total over valid
positions.  Position 1 of the toy engine is terminal (no legal moves), and
`random.choice` of the empty legal-move list raises
`IndexError: Cannot choose from an empty sequence`, modelled by the
`Except.error` result. -/
theorem random_get_move_raises_on_terminal :
    toyR.legal_moves 1 = [] ∧
    RandomStrategy.get_move 0 toyR 1 =
      Except.error "Cannot choose from an empty sequence".toList := by
  exact ⟨rfl, rfl⟩

/-- C3 (amended): `MinMaxStrategy.get_move`,
`MaterialBalanceEvaluator.evaluate` and `MaterialDiffEvaluator.evaluate` are
total over any syntactically valid position (they are plain functions of the
embedding, and checkmate is an ordinary input); `RandomStrategy.get_move`
raises (an `IndexError` from `random.choice` on an empty sequence) exactly
on positions with no legal moves, and returns a move normally on every
position with at least one legal move. -/
theorem random_get_move_error_iff {Pos M : Type} (r : Nat) (R : RulesEngine Pos M)
    (board : Pos) :
    ((∃ msg, RandomStrategy.get_move r R board = Except.error msg) ↔
      R.legal_moves board = []) ∧
    ((∃ s, RandomStrategy.get_move r R board = Except.ok s) ↔
      R.legal_moves board ≠ []) := by
  unfold RandomStrategy.get_move random_choice
  cases hlm : R.legal_moves board with
  | nil => simp [Except.map]
  | cons a as => simp [Except.map]

theorem sortPairs_cons {M : Type} (x : Int × M) (xs : List (Int × M)) :
    sortPairs (x :: xs) = insertPair x (sortPairs xs) := rfl

theorem head?_insertPair_cons {M : Type} (a c : Int × M) (cs : List (Int × M)) :
    (insertPair a (c :: cs)).head? = some (if c.1 < a.1 then c else a) := by
  simp only [insertPair]
  split <;> rfl

theorem head?_sortPairs_cons {M : Type} (x : Int × M) (xs : List (Int × M)) :
    (sortPairs (x :: xs)).head? = some (sortHead x xs) := by
  simp only [sortHead]
  exact List.head?_eq_head (sortPairs_cons_ne_nil x xs)

/-- One step of the head of the stable sort: the first entry of the sorted
list `x :: z :: zs` is the first entry of the sorted `z :: zs` when that has
a strictly smaller score, else `x` (ties go to the earlier candidate `x`). -/
theorem sortHead_cons {M : Type} (x z : Int × M) (zs : List (Int × M)) :
    sortHead x (z :: zs) = if (sortHead z zs).1 < x.1 then sortHead z zs else x := by
  obtain ⟨h, t, hht⟩ := List.exists_cons_of_ne_nil (sortPairs_cons_ne_nil z zs)
  have hz : h = sortHead z zs := by
    have := head?_sortPairs_cons z zs
    rw [hht] at this
    simpa using this
  have hx := head?_sortPairs_cons x (z :: zs)
  rw [sortPairs_cons, hht, head?_insertPair_cons] at hx
  rw [hz] at hx
  simpa using hx.symm

/-- The first entry of the stable ascending sort of a nonempty candidate
list is the first candidate attaining the minimal score: the original list
decomposes as `l₁ ++ best :: l₂` where `best`'s score is a lower bound for
every candidate and every candidate before `best` scores strictly higher. -/
theorem sortHead_first_min {M : Type} (x : Int × M) (xs : List (Int × M)) :
    ∃ l₁ l₂, x :: xs = l₁ ++ sortHead x xs :: l₂ ∧
      (∀ y ∈ x :: xs, (sortHead x xs).1 ≤ y.1) ∧
      (∀ y ∈ l₁, (sortHead x xs).1 < y.1) := by
  induction xs generalizing x with
  | nil =>
    refine ⟨[], [], ?_, ?_, ?_⟩ <;> simp [sortHead, sortPairs, insertPair]
  | cons z zs ih =>
    obtain ⟨l₁, l₂, hdec, hmin, hfirst⟩ := ih z
    rw [sortHead_cons]
    by_cases hlt : (sortHead z zs).1 < x.1
    · rw [if_pos hlt]
      refine ⟨x :: l₁, l₂, ?_, ?_, ?_⟩
      · simp [hdec]
      · intro y hy
        rcases List.mem_cons.mp hy with hy | hy
        · subst hy; exact le_of_lt hlt
        · exact hmin y hy
      · intro y hy
        rcases List.mem_cons.mp hy with hy | hy
        · subst hy; exact hlt
        · exact hfirst y hy
    · rw [if_neg hlt]
      push_neg at hlt
      refine ⟨[], z :: zs, rfl, ?_, by simp⟩
      intro y hy
      rcases List.mem_cons.mp hy with hy | hy
      · subst hy; exact le_rfl
      · exact le_trans hlt (hmin y hy)

/-- Unfolding of one ply of `minmax` at a non-leaf node with legal moves:
score every move by recursion at `depth+1`, sort stably by score, take the
first entry. -/
theorem minmax_step {Pos M : Type} (R : RulesEngine Pos M) (ev : Pos → Pos → Int → Int)
    (selfDepth depth : Nat) (board : Pos) (player : Int) (init_board : Option Pos)
    (m : M) (ms : List M)
    (hdepth : depth < selfDepth) (hmoves : R.legal_moves board = m :: ms) :
    MinMaxStrategy.minmax R ev selfDepth board player init_board depth =
      (let f : M → Int × M := fun mv =>
         ((MinMaxStrategy.minmax R ev selfDepth (R.push board mv) player
             (some (init_board.getD board)) (depth + 1)).1, mv)
       let best := sortHead (f m) (ms.map f)
       (best.1, some best.2)) := by
  rw [MinMaxStrategy.minmax.eq_def]
  simp only [hmoves]
  rw [dif_neg (by omega : ¬ selfDepth ≤ depth)]

/-- C1: at every ply of the search (every `depth < selfDepth`, i.e. every
non-leaf node, in particular the root whenever `searchDepth ≥ 1`), for every
position with at least one legal move, the pair returned by `minmax` is the
candidate `(score, move)` whose score is the numeric minimum over all
candidate moves, ties broken in favour of the move appearing first in the
rules engine's enumeration order (every candidate before the chosen one
scores strictly higher); the same take-the-minimum rule holds at every depth
and for every `player` sign uniformly — there is no alternating max/min
branch. -/
theorem minmax_selects_first_min {Pos M : Type} (R : RulesEngine Pos M)
    (ev : Pos → Pos → Int → Int) (selfDepth depth : Nat) (board : Pos)
    (player : Int) (init_board : Option Pos) (m : M) (ms : List M)
    (hdepth : depth < selfDepth) (hmoves : R.legal_moves board = m :: ms) :
    let evals := (m :: ms).map fun mv =>
      ((MinMaxStrategy.minmax R ev selfDepth (R.push board mv) player
          (some (init_board.getD board)) (depth + 1)).1, mv)
    ∃ best l₁ l₂,
      MinMaxStrategy.minmax R ev selfDepth board player init_board depth =
        (best.1, some best.2) ∧
      evals = l₁ ++ best :: l₂ ∧
      (∀ y ∈ evals, best.1 ≤ y.1) ∧
      (∀ y ∈ l₁, best.1 < y.1) := by
  intro evals
  have hstep := minmax_step R ev selfDepth depth board player init_board m ms hdepth hmoves
  set f : M → Int × M := fun mv =>
    ((MinMaxStrategy.minmax R ev selfDepth (R.push board mv) player
        (some (init_board.getD board)) (depth + 1)).1, mv) with hf
  have hevals : evals = f m :: ms.map f := by
    simp [evals, List.map_cons]
  obtain ⟨l₁, l₂, hdec, hmin, hfirst⟩ := sortHead_first_min (f m) (ms.map f)
  refine ⟨sortHead (f m) (ms.map f), l₁, l₂, hstep, ?_, ?_, hfirst⟩
  · rw [hevals]; exact hdec
  · rw [hevals]; exact hmin

theorem minmax_selects_first_min_witness :
    ((0 : Nat) < 1 ∧ toyR.legal_moves 0 = 1 :: [2]) ∧
    (let evals := (1 :: [2]).map fun mv =>
       ((MinMaxStrategy.minmax toyR (MaterialBalanceEvaluator.evaluate toyR)
           1 (toyR.push 0 mv) 1 (some ((none : Option Nat).getD 0)) (0 + 1)).1, mv)
     ∃ best l₁ l₂,
       MinMaxStrategy.minmax toyR (MaterialBalanceEvaluator.evaluate toyR) 1 0 1 none 0 =
         (best.1, some best.2) ∧
       evals = l₁ ++ best :: l₂ ∧
       (∀ y ∈ evals, best.1 ≤ y.1) ∧
       (∀ y ∈ l₁, best.1 < y.1)) :=
  ⟨⟨by decide, by decide⟩,
   minmax_selects_first_min toyR (MaterialBalanceEvaluator.evaluate toyR) 1 0 0 1 none 1 [2]
     (by decide) (by decide)⟩

/-- C10: during any `MinMaxStrategy` search the `player` argument is passed
unchanged — never negated — through every recursive `minmax` call: replacing
the evaluator by one that ignores its `player` argument and always uses the
root's `p`, and simultaneously replacing the threaded `player` by an
arbitrary `q`, leaves the whole search result unchanged (so every
`Evaluator.evaluate` invocation anywhere in the tree receives the root's
`player`, which is `+1` for `get_move`); consequently every checkmate
position reached during the search evaluates to `-1` under either evaluator,
whichever side is checkmated. -/
theorem minmax_player_passed_unchanged {Pos M : Type} (R : RulesEngine Pos M)
    (ev : Pos → Pos → Int → Int) (selfDepth : Nat) (p q : Int) :
    (∀ (board : Pos) (init_board : Option Pos) (depth : Nat),
      MinMaxStrategy.minmax R ev selfDepth board p init_board depth =
        MinMaxStrategy.minmax R (fun b i _ => ev b i p) selfDepth board q init_board depth) ∧
    (∀ c i0 : Pos, R.is_checkmate c = true →
      MaterialBalanceEvaluator.evaluate R c i0 1 = -1 ∧
      MaterialDiffEvaluator.evaluate R c i0 1 = -1) := by
  constructor
  · have main : ∀ (gas : Nat) (board : Pos) (init_board : Option Pos) (depth : Nat),
        selfDepth - depth ≤ gas →
        MinMaxStrategy.minmax R ev selfDepth board p init_board depth =
          MinMaxStrategy.minmax R (fun b i _ => ev b i p) selfDepth board q init_board depth := by
      intro gas
      induction gas with
      | zero =>
        intro board ib depth hle
        have hsd : selfDepth ≤ depth := by omega
        rw [MinMaxStrategy.minmax.eq_def, MinMaxStrategy.minmax.eq_def]
        simp [hsd]
      | succ g ihg =>
        intro board ib depth hle
        rw [MinMaxStrategy.minmax.eq_def, MinMaxStrategy.minmax.eq_def]
        by_cases hsd : selfDepth ≤ depth
        · simp [hsd]
        · cases hlm : R.legal_moves board with
          | nil => simp [hsd, hlm]
          | cons m ms =>
            have hf : (fun mv => ((MinMaxStrategy.minmax R ev selfDepth (R.push board mv) p
                  (some (ib.getD board)) (depth + 1)).1, mv)) =
                (fun mv => ((MinMaxStrategy.minmax R (fun b i _ => ev b i p) selfDepth
                  (R.push board mv) q (some (ib.getD board)) (depth + 1)).1, mv)) := by
              funext mv
              rw [ihg (R.push board mv) (some (ib.getD board)) (depth + 1) (by omega)]
            simp only [dif_neg hsd, hlm, hf]
            rw [ihg (R.push board m) (some (ib.getD board)) (depth + 1) (by omega)]
    intro board ib depth
    exact main (selfDepth - depth) board ib depth le_rfl
  · intro c i0 h
    exact evaluate_at_checkmate R c i0 1 h

theorem minmax_player_passed_unchanged_witness :
    toyR.is_checkmate 1 = true ∧
    (MinMaxStrategy.minmax toyR (MaterialDiffEvaluator.evaluate toyR) 3 0 1 none 0 =
      MinMaxStrategy.minmax toyR (fun b i _ => MaterialDiffEvaluator.evaluate toyR b i 1)
        3 0 5 none 0) ∧
    (MaterialBalanceEvaluator.evaluate toyR 1 0 1 = -1 ∧
     MaterialDiffEvaluator.evaluate toyR 1 0 1 = -1) :=
  ⟨by decide,
   (minmax_player_passed_unchanged toyR (MaterialDiffEvaluator.evaluate toyR) 3 1 5).1 0 none 0,
   (minmax_player_passed_unchanged toyR (MaterialDiffEvaluator.evaluate toyR) 3 1 5).2 1 0
     (by decide)⟩

/-- When the position has no legal moves, `minmax` returns no move. -/
theorem minmax_snd_none_of_no_moves {Pos M : Type} (R : RulesEngine Pos M)
    (ev : Pos → Pos → Int → Int) (selfDepth : Nat) (board : Pos) (player : Int)
    (init_board : Option Pos) (depth : Nat) (h : R.legal_moves board = []) :
    (MinMaxStrategy.minmax R ev selfDepth board player init_board depth).2 = none := by
  rw [MinMaxStrategy.minmax.eq_def]
  by_cases hsd : selfDepth ≤ depth
  · simp [hsd]
  · simp [hsd, h]

/-- The strategy states after `evaluate_puzzle`: each registered strategy, in
order, with its stats updated by whether its answer matched the expected
move. -/
theorem evaluate_puzzle_snd {Pos : Type} (board : Pos) (expected : List Char)
    (ss : List (ChessStrategy Pos)) :
    (StrategyEvaluator.evaluate_puzzle board expected ss).2 =
      ss.map fun s => s.update_stats (s.get_move board == some expected) := by
  induction ss with
  | nil => rfl
  | cons s rest ih => simp [StrategyEvaluator.evaluate_puzzle, ih]

/-- The success flag of `evaluate_puzzle`: true exactly when some registered
strategy produced the expected move. -/
theorem evaluate_puzzle_fst {Pos : Type} (board : Pos) (expected : List Char)
    (ss : List (ChessStrategy Pos)) :
    ((StrategyEvaluator.evaluate_puzzle board expected ss).1 = true ↔
      ∃ s ∈ ss, s.get_move board = some expected) := by
  induction ss with
  | nil => simp [StrategyEvaluator.evaluate_puzzle]
  | cons s rest ih =>
    simp [StrategyEvaluator.evaluate_puzzle, ih, Bool.or_eq_true, beq_iff_eq]

/-- C6: if the position given to `MinMaxStrategy.get_move` has no legal
moves, `get_move` returns no move (`None`), this answer never compares equal
to any expected move text, and the harness records it as an automatic miss:
the strategy's attempts counter (`total`) increments by one while its
successes counter (`wins`) is unchanged, wherever the strategy sits in the
registration list. -/
theorem minmax_terminal_auto_miss {Pos M : Type} (R : RulesEngine Pos M)
    (ev : Pos → Pos → Int → Int) (selfDepth : Nat) (board : Pos)
    (h : R.legal_moves board = []) (expected : List Char) (sname : String)
    (w t : Nat) (pre post : List (ChessStrategy Pos)) :
    MinMaxStrategy.get_move R ev selfDepth board = none ∧
    (∀ e2 : List Char,
      (MinMaxStrategy.get_move R ev selfDepth board == some e2) = false) ∧
    (StrategyEvaluator.evaluate_puzzle board expected
        (pre ++ ⟨sname, fun bb => MinMaxStrategy.get_move R ev selfDepth bb, w, t⟩
          :: post)).2 =
      (StrategyEvaluator.evaluate_puzzle board expected pre).2 ++
        ⟨sname, fun bb => MinMaxStrategy.get_move R ev selfDepth bb, w, t + 1⟩ ::
          (StrategyEvaluator.evaluate_puzzle board expected post).2 := by
  have hnone : MinMaxStrategy.get_move R ev selfDepth board = none := by
    unfold MinMaxStrategy.get_move
    rw [minmax_snd_none_of_no_moves R ev selfDepth board 1 none 0 h]
  refine ⟨hnone, fun e2 => by rw [hnone]; rfl, ?_⟩
  rw [evaluate_puzzle_snd, evaluate_puzzle_snd, evaluate_puzzle_snd,
    List.map_append, List.map_cons]
  simp only [ChessStrategy.update_stats, hnone]
  simp

theorem minmax_terminal_auto_miss_witness :
    toyR.legal_moves 1 = [] ∧
    (MinMaxStrategy.get_move toyR (MaterialBalanceEvaluator.evaluate toyR) 3 1 = none ∧
     (∀ e2 : List Char,
       (MinMaxStrategy.get_move toyR (MaterialBalanceEvaluator.evaluate toyR) 3 1 ==
         some e2) = false) ∧
     (StrategyEvaluator.evaluate_puzzle 1 "e2e4".toList
         ([] ++ ⟨"minmax",
             fun bb => MinMaxStrategy.get_move toyR (MaterialBalanceEvaluator.evaluate toyR) 3 bb,
             0, 0⟩ :: [])).2 =
       (StrategyEvaluator.evaluate_puzzle 1 "e2e4".toList []).2 ++
         ⟨"minmax",
             fun bb => MinMaxStrategy.get_move toyR (MaterialBalanceEvaluator.evaluate toyR) 3 bb,
             0, 0 + 1⟩ ::
           (StrategyEvaluator.evaluate_puzzle 1 "e2e4".toList []).2) :=
  ⟨by decide,
   minmax_terminal_auto_miss toyR (MaterialBalanceEvaluator.evaluate toyR) 3 1 (by decide)
     "e2e4".toList "minmax" 0 0 [] []⟩

/-- `print_stats` keeps exactly the strategies with at least one attempt, in
registration order. -/
theorem print_stats_filter {Pos : Type} (ss : List (ChessStrategy Pos)) :
    StrategyEvaluator.print_stats ss =
      (ss.filter fun s => decide (0 < s.total)).map fun s => (s.name, s.wins, s.total) := by
  induction ss with
  | nil => rfl
  | cons s rest ih =>
    by_cases hp : 0 < s.total <;>
      simp [StrategyEvaluator.print_stats, List.filter_cons, hp, ih] <;>
      simpa [StrategyEvaluator.print_stats] using ih

/-- C5: `evaluate_all` skips the puzzle source's header record (the first
line never contributes; processing starts at the remaining lines); after
each puzzle a stats snapshot is emitted if and only if at least one
registered strategy answered that puzzle correctly; each snapshot lists
exactly the strategies with `attempts > 0` (in registration order, each
entry carrying the `name`, `successes` and `attempts` from which the printed
`name: successes/attempts (rate%)` text is formatted); and one final
snapshot is always emitted after the last puzzle, unconditionally. -/
theorem evaluate_all_reporting {Pos : Type} (parseFEN : List Char → Pos)
    (ss : List (ChessStrategy Pos)) :
    (∀ (hdr : List Char) (rest : List (List Char)),
      StrategyEvaluator.evaluate_all parseFEN ss (hdr :: rest) =
        StrategyEvaluator.evaluate_all_loop parseFEN ss rest) ∧
    (StrategyEvaluator.evaluate_all_loop parseFEN ss [] =
      Except.ok ([StrategyEvaluator.print_stats ss], ss)) ∧
    (∀ (line : List Char) (rest : List (List Char)) (board : Pos) (e : List Char)
        (es : List (List Char)),
      PuzzleExtractor.extract_puzzle parseFEN line = some (board, e :: es) →
      StrategyEvaluator.evaluate_all_loop parseFEN ss (line :: rest) =
        (StrategyEvaluator.evaluate_all_loop parseFEN
            (StrategyEvaluator.evaluate_puzzle board e ss).2 rest).map fun out =>
          (if (StrategyEvaluator.evaluate_puzzle board e ss).1 then
              StrategyEvaluator.print_stats
                (StrategyEvaluator.evaluate_puzzle board e ss).2 :: out.1
            else out.1, out.2)) ∧
    (∀ (board : Pos) (e : List Char),
      ((StrategyEvaluator.evaluate_puzzle board e ss).1 = true ↔
        ∃ s ∈ ss, s.get_move board = some e)) ∧
    (StrategyEvaluator.print_stats ss =
      (ss.filter fun s => decide (0 < s.total)).map fun s => (s.name, s.wins, s.total)) := by
  refine ⟨fun hdr rest => rfl, rfl, ?_, fun board e => evaluate_puzzle_fst board e ss,
    print_stats_filter ss⟩
  intro line rest board e es hext
  simp only [StrategyEvaluator.evaluate_all_loop, hext]

/-- A one-strategy registration list used to witness the harness theorems. -/
def demoStrategies : List (ChessStrategy Nat) :=
  [⟨"minmax_balance", fun _ => some "m1".toList, 0, 0⟩]

theorem evaluate_all_reporting_witness :
    PuzzleExtractor.extract_puzzle (fun _ => (0 : Nat)) "x,y,m1 m2".toList =
      some (0, "m1".toList :: ["m2".toList]) ∧
    StrategyEvaluator.evaluate_all_loop (fun _ => (0 : Nat)) demoStrategies
        ("x,y,m1 m2".toList :: []) =
      (StrategyEvaluator.evaluate_all_loop (fun _ => (0 : Nat))
          (StrategyEvaluator.evaluate_puzzle 0 "m1".toList demoStrategies).2 []).map fun out =>
        (if (StrategyEvaluator.evaluate_puzzle 0 "m1".toList demoStrategies).1 then
            StrategyEvaluator.print_stats
              (StrategyEvaluator.evaluate_puzzle 0 "m1".toList demoStrategies).2 :: out.1
          else out.1, out.2) :=
  ⟨by decide,
   (evaluate_all_reporting (fun _ => (0 : Nat)) demoStrategies).2.2.1
     "x,y,m1 m2".toList [] 0 "m1".toList ["m2".toList] (by decide)⟩

theorem splitOnChar_no_sep (c : Char) (f : List Char) (h : c ∉ f) :
    splitOnChar c f = [f] := by
  induction f with
  | nil => rfl
  | cons a f' ih =>
    have hac : ¬ a = c := fun hac => h (hac ▸ List.mem_cons_self a f')
    have ih' := ih (fun hm => h (List.mem_cons_of_mem a hm))
    simp only [splitOnChar, if_neg hac, ih']

theorem splitOnChar_append (c : Char) (f r : List Char) (h : c ∉ f) :
    splitOnChar c (f ++ c :: r) = f :: splitOnChar c r := by
  induction f with
  | nil => simp [splitOnChar]
  | cons a f' ih =>
    have hac : ¬ a = c := fun hac => h (hac ▸ List.mem_cons_self a f')
    have ih' := ih (fun hm => h (List.mem_cons_of_mem a hm))
    simp only [List.cons_append, splitOnChar, if_neg hac, List.append_eq, ih']

/-- C4 counterexample: `extract_puzzle` does not resolve the FEN and Moves
columns against the input dataset's own header.  Serializing a record whose
dataset orders its columns `PuzzleId, Moves, FEN` (Moves value `m1 m2`, FEN
value `FFF`), extraction returns the Moves text as the FEN field and the
split FEN text as the move list, instead of the record's actual FEN field
`FFF` and move list `[m1, m2]`. -/
theorem extract_puzzle_reordered_counterexample :
    PuzzleExtractor.extract_puzzle (fun s => s)
        (joinComma ["id1".toList, "m1 m2".toList, "FFF".toList]) =
      some ("m1 m2".toList, ["FFF".toList]) ∧
    PuzzleExtractor.extract_puzzle (fun s => s)
        (joinComma ["id1".toList, "m1 m2".toList, "FFF".toList]) ≠
      some ("FFF".toList, ["m1".toList, "m2".toList]) := by
  constructor <;> decide

/-- C4 (amended): `extract_puzzle` resolves the FEN and Moves columns purely
positionally, at the indices the hard-coded `HEADERS` list assigns to those
names (`FEN ↦ 1`, `Moves ↦ 2`); the dataset's own header line is never
consulted (`evaluate_all` discards it unread), so extraction is correct
exactly for datasets whose columns follow the canonical order: serializing
any record whose second field is the FEN text and whose third field is the
Moves text (fields comma-free) extracts that board and that move list. -/
theorem extract_puzzle_positional {B : Type} (parseFEN : List Char → B)
    (f0 f1 f2 : List Char) (rest : List (List Char))
    (h0 : ',' ∉ f0) (h1 : ',' ∉ f1) (h2 : ',' ∉ f2) :
    PuzzleExtractor.header_idx "FEN" = some 1 ∧
    PuzzleExtractor.header_idx "Moves" = some 2 ∧
    PuzzleExtractor.extract_puzzle parseFEN (joinComma (f0 :: f1 :: f2 :: rest)) =
      some (parseFEN f1, splitOnChar ' ' f2) := by
  refine ⟨by decide, by decide, ?_⟩
  cases rest with
  | nil =>
    have e1 : joinComma (f0 :: f1 :: f2 :: []) = f0 ++ ',' :: (f1 ++ ',' :: f2) := rfl
    simp only [PuzzleExtractor.extract_puzzle, e1,
      splitOnChar_append ',' f0 _ h0, splitOnChar_append ',' f1 _ h1,
      splitOnChar_no_sep ',' f2 h2]
    rfl
  | cons r rs =>
    have e1 : joinComma (f0 :: f1 :: f2 :: r :: rs) =
        f0 ++ ',' :: (f1 ++ ',' :: (f2 ++ ',' :: joinComma (r :: rs))) := rfl
    simp only [PuzzleExtractor.extract_puzzle, e1,
      splitOnChar_append ',' f0 _ h0, splitOnChar_append ',' f1 _ h1,
      splitOnChar_append ',' f2 _ h2]
    rfl

theorem extract_puzzle_positional_witness :
    ((',' ∉ "id1".toList) ∧ (',' ∉ "FFF".toList) ∧ (',' ∉ "m1 m2".toList)) ∧
    (PuzzleExtractor.header_idx "FEN" = some 1 ∧
     PuzzleExtractor.header_idx "Moves" = some 2 ∧
     PuzzleExtractor.extract_puzzle (fun s => s)
         (joinComma ["id1".toList, "FFF".toList, "m1 m2".toList]) =
       some ("FFF".toList, splitOnChar ' ' "m1 m2".toList)) :=
  ⟨⟨by decide, by decide, by decide⟩,
   extract_puzzle_positional (fun s => s) "id1".toList "FFF".toList "m1 m2".toList []
     (by decide) (by decide) (by decide)⟩
